import Mathlib

/-!
Verification of the Cascade information-reconciliation engine
(bb84/cascade/key.py and bb84/cascade/session.py) against its design
specification.  Python dictionaries indexed by 0..size are embedded as
Lean lists; the bit values 0/1 stored by key.py are embedded as Nat.
Randomized choices (random.Random(seed), random.sample) are embedded by
passing the drawn values explicitly, so that every definition is a pure
function of its inputs.
-/

namespace Cascade

/-- Model of the stream of bits produced by random.Random(seed).randint(0, 1):
a deterministic function of the seed and of the draw index. -/
def randintBit (seed : Int) (i : Nat) : Nat :=
  ((seed.natAbs + 1) * 2654435761 + i * 40503) % 2

/-- A key, from key.py: the dictionary from index in [0, size) to bit value,
embedded as a list whose length is the size of the key. -/
structure Key where
  bits : List Nat
deriving DecidableEq, Repr

/-- Key.size property from key.py. -/
def Key.size (k : Key) : Nat := k.bits.length

/-- Key.get_bit from key.py: asserts that the index is in range, then returns
the bit; the assertion failure is embedded as none. -/
def Key.get_bit (k : Key) (index : Nat) : Option Nat :=
  if index < k.size then some (k.bits.getD index 0) else none

/-- Key.create_random_key from key.py: a new key of the given size whose bits
are drawn from a local random.Random(seed) generator.  The entropy argument
stands for the operating-system entropy that random.Random(None) consumes; it
is used only when seed is none, never when an explicit seed is supplied. -/
def Key.create_random_key (size : Nat) (seed : Option Int) (entropy : Nat) : Key :=
  match seed with
  | some s => ⟨(List.range size).map (fun i => randintBit s i)⟩
  | none => ⟨(List.range size).map (fun i => randintBit (Int.ofNat entropy) i)⟩

/-- Key.copy from key.py.  The argument bits_to_flip stands for the result of
random.sample(self.bits.keys(), error_count): a list of error_count distinct
indices of the key.  The method builds a deepcopy of the bits, then flips the
sampled positions in the bits of the receiver itself (self), not in the copy,
exactly as the source does.  The result is the pair (returned copy, state of
the receiver after the call). -/
def Key.copy (k : Key) (bits_to_flip : List Nat) : Key × Key :=
  let key : Key := ⟨k.bits⟩
  let selfAfter : Key :=
    ⟨bits_to_flip.foldl (fun bs index => bs.set index (1 - bs.getD index 0)) k.bits⟩
  (key, selfAfter)

/-- Key.difference from key.py: asserts that the two sizes are equal (failure
embedded as none), then counts the positions at which the bits differ. -/
def Key.difference (k other_key : Key) : Option Nat :=
  if k.size = other_key.size then
    some ((List.range k.size).countP
      (fun i => decide (k.bits.getD i 0 ≠ other_key.bits.getD i 0)))
  else none

/-- Value of getD after setting the same position. -/
theorem getD_set_self (l : List Nat) (i : Nat) (v : Nat) (h : i < l.length) :
    (l.set i v).getD i 0 = v := by
  simp [List.getD_eq_getElem?_getD, List.getElem?_set_self, h]

/-- Value of getD after setting a different position. -/
theorem getD_set_ne (l : List Nat) (i j : Nat) (v : Nat) (h : i ≠ j) :
    (l.set i v).getD j 0 = l.getD j 0 := by
  simp [List.getD_eq_getElem?_getD, List.getElem?_set_ne, h]

/-- The fold of flips performed by Key.copy, pointwise: a sampled position is
flipped once, every other position keeps its value. -/
theorem flip_foldl_getD (sample : List Nat) :
    ∀ (bs : List Nat), sample.Nodup → (∀ i ∈ sample, i < bs.length) →
    ∀ j, (sample.foldl (fun bs index => bs.set index (1 - bs.getD index 0)) bs).getD j 0 =
      if j ∈ sample then 1 - bs.getD j 0 else bs.getD j 0 := by
  induction sample with
  | nil => intro bs _ _ j; simp
  | cons a rest ih =>
    intro bs hnd hb j
    have hna : a ∉ rest := (List.nodup_cons.mp hnd).1
    have hndr : rest.Nodup := (List.nodup_cons.mp hnd).2
    have ha : a < bs.length := hb a (by simp)
    have hbr : ∀ i ∈ rest, i < (bs.set a (1 - bs.getD a 0)).length := by
      intro i hi; simpa using hb i (by simp [hi])
    simp only [List.foldl_cons]
    rw [ih (bs.set a (1 - bs.getD a 0)) hndr hbr j]
    by_cases hja : j = a
    · subst hja
      simp only [hna, if_neg, List.mem_cons, true_or, if_pos]
      rw [if_neg (by simp [hna]), getD_set_self _ _ _ ha]
    · by_cases hjr : j ∈ rest
      · rw [if_pos hjr, if_pos (by simp [hjr]), getD_set_ne _ _ _ _ (fun h => hja h.symm)]
      · rw [if_neg hjr, if_neg (by simp [hja, hjr]), getD_set_ne _ _ _ _ (fun h => hja h.symm)]

/-- The fold of flips performed by Key.copy preserves the length of the bit list. -/
theorem flip_foldl_length (sample : List Nat) :
    ∀ (bs : List Nat),
      (sample.foldl (fun bs index => bs.set index (1 - bs.getD index 0)) bs).length =
        bs.length := by
  induction sample with
  | nil => intro bs; rfl
  | cons a rest ih => intro bs; simp only [List.foldl_cons]; rw [ih]; simp

/-- Counting the members of a Nodup list inside the range that bounds them
recovers the length of the list. -/
theorem countP_range_mem (sample : List Nat) (n : Nat) (hnd : sample.Nodup)
    (hb : ∀ i ∈ sample, i < n) :
    (List.range n).countP (fun i => decide (i ∈ sample)) = sample.length := by
  rw [List.countP_eq_length_filter]
  have hperm : ((List.range n).filter (fun i => decide (i ∈ sample))).Perm sample := by
    apply List.perm_of_nodup_nodup_toFinset_eq
    · exact (List.nodup_range n).filter _
    · exact hnd
    · ext x
      simp only [List.mem_toFinset, List.mem_filter, List.mem_range, decide_eq_true_eq]
      exact ⟨fun h => h.2, fun h => ⟨hb x h, h⟩⟩
  exact hperm.length_eq

/-- Flipping a Nat bit always changes it (1 - b is never b over Nat). -/
theorem one_sub_ne (b : Nat) : 1 - b ≠ b := by omega

/-- C1: for every key and every valid error count (embedded as the list of
distinct in-range positions drawn by random.sample), Key.copy returns a copy
and leaves the receiver in a state such that the two keys agree everywhere
except at exactly the sampled positions, which are flipped; in particular the
Hamming distance (Key.difference) between the returned copy and the key the
method was called on is exactly error_count. -/
theorem c1_copy_hamming (k : Key) (sample : List Nat) (hnd : sample.Nodup)
    (hb : ∀ i ∈ sample, i < k.size) :
    Key.difference (k.copy sample).1 (k.copy sample).2 = some sample.length ∧
    (∀ j, j ∉ sample →
      (k.copy sample).2.bits.getD j 0 = (k.copy sample).1.bits.getD j 0) ∧
    (∀ j ∈ sample,
      (k.copy sample).2.bits.getD j 0 = 1 - (k.copy sample).1.bits.getD j 0) := by
  have hlen := flip_foldl_length sample k.bits
  have hpt := flip_foldl_getD sample k.bits hnd hb
  refine ⟨?_, ?_, ?_⟩
  · unfold Key.difference Key.copy Key.size
    simp only []
    rw [if_pos (by simpa using hlen.symm)]
    congr 1
    rw [← countP_range_mem sample k.bits.length hnd hb]
    apply List.countP_congr
    intro i hi
    simp only [decide_eq_true_eq]
    rw [hpt i]
    by_cases hmem : i ∈ sample
    · simp only [hmem, if_pos, iff_true, decide_eq_true_eq]
      exact fun h => one_sub_ne _ h.symm
    · simp [hmem]
  · intro j hj
    show (sample.foldl _ k.bits).getD j 0 = k.bits.getD j 0
    rw [hpt j, if_neg hj]
  · intro j hj
    show (sample.foldl _ k.bits).getD j 0 = 1 - k.bits.getD j 0
    rw [hpt j, if_pos hj]

/-- Witness for C1 at a concrete input: a size-3 key with two sampled
positions. -/
theorem c1_copy_hamming_witness :
    Key.difference (Key.copy ⟨[0, 1, 0]⟩ [0, 2]).1 (Key.copy ⟨[0, 1, 0]⟩ [0, 2]).2 =
      some 2 :=
  (c1_copy_hamming ⟨[0, 1, 0]⟩ [0, 2] (by decide) (by decide)).1

/-- C2 failing input, evaluated: on the size-1 key with bit 0 and error count 1
(sampled position 0), Key.copy mutates the key it is called on (its bit
becomes 1) and returns an unchanged copy, contradicting the claim that the
receiver is left unchanged. -/
theorem c2_copy_mutates_receiver :
    (Key.copy ⟨[0]⟩ [0]).2 ≠ ⟨[0]⟩ ∧
    (Key.copy ⟨[0]⟩ [0]).2 = ⟨[1]⟩ ∧
    (Key.copy ⟨[0]⟩ [0]).1 = ⟨[0]⟩ := by decide

/-- C8: Key.create_random_key with an explicit integer seed is a function of
the size and the seed only: the operating-system entropy (standing for any
hidden global state) does not influence the result, so two calls with the same
size and seed produce bit-for-bit identical keys. -/
theorem c8_create_random_key_deterministic (size : Nat) (seed : Int)
    (entropy1 entropy2 : Nat) :
    Key.create_random_key size (some seed) entropy1 =
      Key.create_random_key size (some seed) entropy2 := rfl

/-- C9: Key.difference is symmetric; when the sizes are equal it is zero
exactly when the keys agree at every position; and it fails (returns none,
embedding the assertion failure) exactly when the sizes differ. -/
theorem c9_difference_symmetric (a b : Key) :
    Key.difference a b = Key.difference b a ∧
    (a.size = b.size →
      (Key.difference a b = some 0 ↔
        ∀ i, i < a.size → a.bits.getD i 0 = b.bits.getD i 0)) ∧
    (a.size ≠ b.size → Key.difference a b = none) := by
  refine ⟨?_, ?_, ?_⟩
  · unfold Key.difference
    by_cases h : a.size = b.size
    · rw [if_pos h, if_pos h.symm, h]
      congr 1
      apply List.countP_congr
      intro i _
      simp only [decide_eq_true_eq]
      exact ⟨fun hne => fun he => hne he.symm, fun hne => fun he => hne he.symm⟩
    · rw [if_neg h, if_neg (fun he => h he.symm)]
  · intro h
    unfold Key.difference
    rw [if_pos h]
    simp only [Option.some.injEq]
    rw [List.countP_eq_zero]
    constructor
    · intro hall i hi
      have := hall i (List.mem_range.mpr hi)
      simpa using this
    · intro hall i hi
      simpa using hall i (List.mem_range.mp hi)
  · intro h
    unfold Key.difference
    rw [if_neg h]

/-- Witness for C9 at concrete inputs: symmetry on equal-size keys and failure
on keys of different sizes. -/
theorem c9_difference_symmetric_witness :
    Key.difference ⟨[0, 1]⟩ ⟨[1, 1]⟩ = Key.difference ⟨[1, 1]⟩ ⟨[0, 1]⟩ ∧
    Key.difference ⟨[0, 1]⟩ ⟨[1]⟩ = none :=
  ⟨(c9_difference_symmetric ⟨[0, 1]⟩ ⟨[1, 1]⟩).1,
   (c9_difference_symmetric ⟨[0, 1]⟩ ⟨[1]⟩).2.2 (by decide)⟩

/-- Error state of a block, Block.ERRORS_EVEN and Block.ERRORS_ODD (block.py,
referenced from session.py). -/
inductive Parity where
  | errors_even : Parity
  | errors_odd : Parity
deriving DecidableEq, Repr

/-- Modelled from the spec: block.py is not part of src/.  A block is a
contiguous range of shuffled positions; here it carries the list of original
key indexes it covers (block.key_indexes, the shuffled positions of its range
mapped through the shuffle), its top-level flag (block.is_top_block), and a
numeric identity standing for Python object identity. -/
structure Block where
  blockId : Nat
  key_indexes : List Nat
  is_top_block : Bool
deriving DecidableEq, Repr

/-- Block.size: the number of shuffled positions, hence of covered original
key indexes, of the block. -/
def Block.size (b : Block) : Nat := b.key_indexes.length

/-- The Cascade parameters consumed by session.py (parameters.py is not part
of src/): number of passes, block-size function of the estimated quantum bit
error rate and the pass number, and the sub-block-reuse flag.  The estimated
error rate, a Python float only ever passed through to the injected function,
is embedded as a rational. -/
structure Parameters where
  nr_iterations : Nat
  block_size_function : Rat → Nat → Nat
  sub_block_reuse : Bool

/-- Shuffle.SHUFFLE_KEEP_SAME and Shuffle.SHUFFLE_RANDOM (shuffle.py, not part
of src/). -/
inductive ShuffleMode where
  | shuffle_keep_same : ShuffleMode
  | shuffle_random : ShuffleMode
deriving DecidableEq, Repr

/-- Modelled from the spec: shuffle.py is not part of src/.  A shuffle is a
bijection from shuffled position to original key index over [0, size), either
the identity or a pseudo-random permutation drawn from generator state. -/
structure Shuffle where
  size : Nat
  mode : ShuffleMode
  perm : Nat → Nat

/-- Advance the pseudo-random generator state consumed by random shuffles. -/
def shuffle_rng_next (rng : Nat) : Nat := (rng * 1664525 + 1013904223) % 4294967296

/-- Modelled from the spec: constructing a Shuffle.  Identity mode leaves the
positions in place and does not consume randomness; random mode derives a
permutation of [0, size) (here a rotation determined by the generator state)
and advances the generator. -/
def Shuffle.create (size : Nat) (mode : ShuffleMode) (rng : Nat) : Shuffle × Nat :=
  match mode with
  | ShuffleMode.shuffle_keep_same =>
      ({ size := size, mode := mode, perm := fun p => p }, rng)
  | ShuffleMode.shuffle_random =>
      ({ size := size, mode := mode,
         perm := fun p => if size = 0 then p else (p + rng) % size },
       shuffle_rng_next rng)

/-- State of a Session (session.py) together with the key being corrected:
the bits of the key of Bob (key bits are embedded as Bool, 0 being false and
1 true, with flipping as negation), the map from key index to the blocks that
cover it (a total function defaulting to the empty list, matching
dict.get(key_index, []) in session.py), the pending error-block priority
queue of (block.size, block) entries, and a counter supplying fresh block
identities. -/
structure SessionState where
  bob : List Bool
  key_index_to_blocks : List (Nat × List Block)
  error_blocks : List (Nat × Block)
  next_block_id : Nat
deriving DecidableEq, Repr

/-- Current parity of Bob over a list of key indexes: the number of one-bits
at those indexes, modulo 2. -/
def current_parity (bits : List Bool) (indexes : List Nat) : Nat :=
  (indexes.countP (fun i => bits.getD i false)) % 2

/-- Number of indexes at which the key of Bob and the key of Alice disagree
(counted with multiplicity over the index list). -/
def mismatches (alice bob : List Bool) (indexes : List Nat) : Nat :=
  indexes.countP (fun i => bob.getD i false ^^ alice.getD i false)

/-- Block.error_parity (block.py, modelled from the spec): the current parity
of Bob over the covered indexes compared against the reference parity that the
channel reports for the same range, which is the parity of the unmodified key
of Alice; the block has an odd number of errors exactly when the two differ. -/
def Block.error_parity (alice bob : List Bool) (b : Block) : Parity :=
  if current_parity bob b.key_indexes = current_parity alice b.key_indexes
  then Parity.errors_even else Parity.errors_odd

/-- Modelled from the spec: the recursive parity bisection of
Block.correct_one_bit, reduced to the position it locates.  A block of size
one is the erroneous bit; otherwise the first half (ceil(size/2) positions) is
queried, the second half is derived by parity additivity, and the search
recurses into the half with an odd error state. -/
def bisect_find (alice bob : List Bool) (indexes : List Nat) : Nat :=
  if h : indexes.length ≤ 1 then indexes.headD 0
  else
    let half := (indexes.length + 1) / 2
    if current_parity bob (indexes.take half) = current_parity alice (indexes.take half)
    then bisect_find alice bob (indexes.drop half)
    else bisect_find alice bob (indexes.take half)
termination_by indexes.length
decreasing_by
  · simp only [List.length_drop]; omega
  · simp only [List.length_take]; omega

/-- heapq.heappush on the pending error-block queue: adds the entry. -/
def heap_push (q : List (Nat × Block)) (e : Nat × Block) : List (Nat × Block) :=
  q ++ [e]

/-- heapq.heappop on the pending error-block queue: removes and returns an
entry of minimal key, or none when the queue is empty. -/
def heap_pop_min : List (Nat × Block) → Option ((Nat × Block) × List (Nat × Block))
  | [] => none
  | x :: xs =>
    match heap_pop_min xs with
    | none => some (x, [])
    | some (m, rest) => if x.1 ≤ m.1 then some (x, xs) else some (m, x :: rest)

/-- Session.register_block (session.py), one key index at a time: appends the
block to the bucket of each covered key index, failing with the assertion
(embedded as an error) if the block is already present in a bucket. -/
def registry_lookup (reg : List (Nat × List Block)) (key_index : Nat) : List Block :=
  (reg.lookup key_index).getD []

/-- Appending a block to the bucket of a key index of the registry dictionary:
the existing entry for that key gains the block, a missing key gets a new
singleton bucket. -/
def registry_append (reg : List (Nat × List Block)) (key_index : Nat) (block : Block) :
    List (Nat × List Block) :=
  match reg with
  | [] => [(key_index, [block])]
  | (k, bucket) :: rest =>
    if k = key_index then (k, bucket ++ [block]) :: rest
    else (k, bucket) :: registry_append rest key_index block

def register_block_go (block : Block) : SessionState → List Nat → Except String SessionState
  | st, [] => Except.ok st
  | st, key_index :: rest =>
    if block ∈ registry_lookup st.key_index_to_blocks key_index then
      Except.error "AssertionError: block already registered for this key index"
    else
      register_block_go block
        { st with key_index_to_blocks :=
            registry_append st.key_index_to_blocks key_index block }
        rest

/-- Session.register_block from session.py. -/
def Session.register_block (st : SessionState) (block : Block) : Except String SessionState :=
  register_block_go block st block.key_indexes

/-- Session.get_blocks_containing_key_index from session.py. -/
def Session.get_blocks_containing_key_index (st : SessionState) (key_index : Nat) : List Block :=
  registry_lookup st.key_index_to_blocks key_index

/-- Session.register_error_block from session.py, acting on the pending
error-block queue: when sub-block reuse is disabled only top-level blocks are
registered (other blocks are silently ignored); the entry (block.size, block)
is pushed without any duplicate check. -/
def Session.register_error_block (parameters : Parameters) (q : List (Nat × Block))
    (block : Block) : List (Nat × Block) :=
  if !parameters.sub_block_reuse && !block.is_top_block then q
  else heap_push q (block.size, block)

/-- Modelled from the spec: the cascade notification issued when a bit of the
key of Bob is flipped.  Every registered block covering the flipped key index,
other than the block that performed the flip, has had its parity toggled; the
ones whose error state is now odd are registered as pending error blocks.  The
flipping block is identified by its block identity when it is itself a
registered block (a size-one top-level block); a bisection sub-block is never
in the registry here because sub-block registration happens in block.py, which
is not part of src/. -/
def Session.notify_bit_flip (alice : List Bool) (parameters : Parameters)
    (st : SessionState) (key_index : Nat) (flippedId : Option Nat) : SessionState :=
  let newQueue :=
    (Session.get_blocks_containing_key_index st key_index).foldl
      (fun q b =>
        if some b.blockId = flippedId then q
        else if Block.error_parity alice st.bob b = Parity.errors_odd then
          Session.register_error_block parameters q b
        else q)
      st.error_blocks
  { st with error_blocks := newQueue }

/-- Modelled from the spec: Block.correct_one_bit (block.py is not part of
src/).  On a block with an even error state it is a no-operation returning
none (session.py line 231 relies on this).  Otherwise the parity bisection
locates the erroneous position, the corresponding bit of the key of Bob is
flipped (Key.flip_bit asserts that the index is in range; the failure is
embedded as an error), and the session is notified of the flip. -/
def Block.correct_one_bit (alice : List Bool) (parameters : Parameters)
    (st : SessionState) (b : Block) : Except String (SessionState × Option Nat) :=
  if Block.error_parity alice st.bob b = Parity.errors_even then
    Except.ok (st, none)
  else
    let i := bisect_find alice st.bob b.key_indexes
    if i < st.bob.length then
      let st1 : SessionState := { st with bob := st.bob.set i (!(st.bob.getD i false)) }
      let flippedId : Option Nat := if b.size = 1 then some b.blockId else none
      Except.ok (Session.notify_bit_flip alice parameters st1 i flippedId, some i)
    else
      Except.error "AssertionError: flip_bit index out of range"

/-- Parity additivity at the level of counts: the one-bit counts of the two
keys and the mismatch count have the same parity when added. -/
theorem counts_mismatch_parity (alice bob : List Bool) (l : List Nat) :
    (l.countP (fun i => bob.getD i false) + l.countP (fun i => alice.getD i false)) % 2 =
      (l.countP (fun i => bob.getD i false ^^ alice.getD i false)) % 2 := by
  induction l with
  | nil => rfl
  | cons a rest ih =>
    rw [List.countP_cons, List.countP_cons, List.countP_cons]
    cases hb : bob.getD a false <;> cases ha : alice.getD a false <;>
      simp only [Bool.false_xor, Bool.true_xor, Bool.not_false, Bool.not_true,
        Bool.false_eq_true, if_true, if_false, eq_self_iff_true] <;> omega

/-- A block has an odd error state exactly when the number of mismatched
covered indexes is odd. -/
theorem parity_ne_iff (alice bob : List Bool) (l : List Nat) :
    current_parity bob l ≠ current_parity alice l ↔ mismatches alice bob l % 2 = 1 := by
  unfold current_parity mismatches
  have h := counts_mismatch_parity alice bob l
  omega

/-- Mismatch counts add over a split of the index list. -/
theorem mismatches_append (alice bob : List Bool) (l1 l2 : List Nat) :
    mismatches alice bob (l1 ++ l2) = mismatches alice bob l1 + mismatches alice bob l2 := by
  unfold mismatches
  exact List.countP_append _ _ _

/-- Correctness of the parity bisection: on an index list with an odd number
of mismatches, bisect_find returns an index at which the keys of Bob and Alice
disagree. -/
theorem bisect_find_mismatch (alice bob : List Bool) :
    ∀ (l : List Nat), mismatches alice bob l % 2 = 1 →
      bob.getD (bisect_find alice bob l) false ≠ alice.getD (bisect_find alice bob l) false := by
  intro l
  induction l using bisect_find.induct alice bob with
  | case1 l h =>
    intro hodd
    match l, h with
    | [], _ => simp [mismatches] at hodd
    | [i], _ =>
      unfold bisect_find
      simp only [List.length_singleton, le_refl, dite_true, List.headD_cons]
      unfold mismatches at hodd
      rw [List.countP_cons, List.countP_nil] at hodd
      revert hodd
      cases hb : bob.getD i false <;> cases ha : alice.getD i false <;> simp
  | case2 l h half heven ih =>
    intro hodd
    have hsplit := mismatches_append alice bob (l.take half) (l.drop half)
    rw [List.take_append_drop] at hsplit
    have htake : mismatches alice bob (l.take half) % 2 = 0 := by
      rcases Nat.mod_two_eq_zero_or_one (mismatches alice bob (l.take half)) with h0 | h1
      · exact h0
      · exact absurd h1 (by rw [← parity_ne_iff] at h1 ⊢; exact fun hne => hne heven)
    have hdrop : mismatches alice bob (l.drop half) % 2 = 1 := by omega
    unfold bisect_find
    rw [dif_neg h, if_pos heven]
    exact ih hdrop
  | case3 l h half hodd2 ih =>
    intro _
    have htake : mismatches alice bob (l.take half) % 2 = 1 :=
      (parity_ne_iff alice bob (l.take half)).mp hodd2
    unfold bisect_find
    rw [dif_neg h, if_neg hodd2]
    exact ih htake

/-- Number of positions of the key of Bob that disagree with the key of
Alice: the measure that every successful correction strictly decreases. -/
def ham (alice bob : List Bool) : Nat :=
  ((Finset.range bob.length).filter (fun j => bob.getD j false ≠ alice.getD j false)).card

/-- Value of getD after setting the same position, Bool version. -/
theorem getD_set_self_bool (l : List Bool) (i : Nat) (v : Bool) (h : i < l.length) :
    (l.set i v).getD i false = v := by
  simp [List.getD_eq_getElem?_getD, List.getElem?_set_self, h]

/-- Value of getD after setting a different position, Bool version. -/
theorem getD_set_ne_bool (l : List Bool) (i j : Nat) (v : Bool) (h : i ≠ j) :
    (l.set i v).getD j false = l.getD j false := by
  simp [List.getD_eq_getElem?_getD, List.getElem?_set_ne, h]

/-- Flipping a bit of the key of Bob at an in-range position where it
disagrees with the key of Alice strictly decreases the mismatch measure. -/
theorem ham_flip_lt (alice bob : List Bool) (i : Nat) (hi : i < bob.length)
    (hne : bob.getD i false ≠ alice.getD i false) :
    ham alice (bob.set i (!(bob.getD i false))) < ham alice bob := by
  unfold ham
  rw [List.length_set]
  have hmem : i ∈ (Finset.range bob.length).filter
      (fun j => bob.getD j false ≠ alice.getD j false) :=
    Finset.mem_filter.mpr ⟨Finset.mem_range.mpr hi, hne⟩
  have hset : (Finset.range bob.length).filter
      (fun j => (bob.set i (!(bob.getD i false))).getD j false ≠ alice.getD j false) =
      ((Finset.range bob.length).filter
        (fun j => bob.getD j false ≠ alice.getD j false)).erase i := by
    ext j
    rw [Finset.mem_erase, Finset.mem_filter, Finset.mem_filter]
    constructor
    · rintro ⟨hj, hd⟩
      by_cases hji : j = i
      · subst hji
        rw [getD_set_self_bool _ _ _ hi] at hd
        exact absurd (show (!(bob.getD j false)) = alice.getD j false by
          revert hne
          cases bob.getD j false <;> cases alice.getD j false <;> simp) hd
      · rw [getD_set_ne_bool _ _ _ _ (fun h => hji h.symm)] at hd
        exact ⟨hji, hj, hd⟩
    · rintro ⟨hji, hj, hd⟩
      refine ⟨hj, ?_⟩
      rw [getD_set_ne_bool _ _ _ _ (fun h => hji h.symm)]
      exact hd
  rw [hset]
  exact Finset.card_erase_lt_of_mem hmem

/-- Session.notify_bit_flip does not change the key of Bob. -/
theorem notify_bit_flip_bob (alice : List Bool) (parameters : Parameters)
    (st : SessionState) (key_index : Nat) (flippedId : Option Nat) :
    (Session.notify_bit_flip alice parameters st key_index flippedId).bob = st.bob := rfl

/-- A successful Block.correct_one_bit on a block with an odd error state
strictly decreases the mismatch measure of the key of Bob. -/
theorem correct_one_bit_ok_ham (alice : List Bool) (parameters : Parameters)
    (st : SessionState) (b : Block) (st2 : SessionState) (r : Option Nat)
    (hodd : Block.error_parity alice st.bob b = Parity.errors_odd)
    (h : Block.correct_one_bit alice parameters st b = Except.ok (st2, r)) :
    ham alice st2.bob < ham alice st.bob := by
  unfold Block.correct_one_bit at h
  rw [hodd] at h
  simp only [reduceCtorEq, if_false] at h
  by_cases hi : bisect_find alice st.bob b.key_indexes < st.bob.length
  · rw [if_pos hi] at h
    have hmm : mismatches alice st.bob b.key_indexes % 2 = 1 := by
      rw [← parity_ne_iff]
      unfold Block.error_parity at hodd
      by_cases hp : current_parity st.bob b.key_indexes = current_parity alice b.key_indexes
      · rw [if_pos hp] at hodd; exact absurd hodd (by simp)
      · exact hp
    have hne := bisect_find_mismatch alice st.bob b.key_indexes hmm
    have hst2 : st2.bob = st.bob.set (bisect_find alice st.bob b.key_indexes)
        (!(st.bob.getD (bisect_find alice st.bob b.key_indexes) false)) := by
      have := congrArg (fun x : SessionState × Option Nat => x.1.bob)
        (Except.ok.inj h)
      simpa [notify_bit_flip_bob] using this.symm
    rw [hst2]
    exact ham_flip_lt alice st.bob _ hi hne
  · rw [if_neg hi] at h
    exact absurd h (by simp)

/-- heap_pop_min returns none exactly on the empty queue. -/
theorem heap_pop_min_none (q : List (Nat × Block)) :
    heap_pop_min q = none ↔ q = [] := by
  cases q with
  | nil => simp [heap_pop_min]
  | cons x xs =>
    simp only [heap_pop_min]
    constructor
    · intro h
      cases hx : heap_pop_min xs with
      | none => rw [hx] at h; exact absurd h (by simp)
      | some p => rw [hx] at h; rcases p with ⟨m, rest⟩; by_cases hle : x.1 ≤ m.1 <;>
          simp [hle] at h
    · intro h; exact absurd h (by simp)

/-- heap_pop_min removes exactly one entry. -/
theorem heap_pop_min_length (q : List (Nat × Block)) (e : Nat × Block)
    (rest : List (Nat × Block)) (h : heap_pop_min q = some (e, rest)) :
    rest.length + 1 = q.length := by
  induction q generalizing e rest with
  | nil => simp [heap_pop_min] at h
  | cons x xs ih =>
    simp only [heap_pop_min] at h
    cases hx : heap_pop_min xs with
    | none =>
      rw [hx] at h
      have hxs : xs = [] := (heap_pop_min_none xs).mp hx
      simp only [Option.some.injEq, Prod.mk.injEq] at h
      rw [← h.2, hxs]
      simp
    | some p =>
      rcases p with ⟨m, mrest⟩
      rw [hx] at h
      simp only [] at h
      by_cases hle : x.1 ≤ m.1
      · rw [if_pos hle] at h
        simp only [Option.some.injEq, Prod.mk.injEq] at h
        rw [← h.2]
        simp
      · rw [if_neg hle] at h
        simp only [Option.some.injEq, Prod.mk.injEq] at h
        have := ih m mrest hx
        rw [← h.2]
        simp only [List.length_cons]
        omega

/-- heap_pop_min returns an entry of the queue whose key is minimal. -/
theorem heap_pop_min_min (q : List (Nat × Block)) (e : Nat × Block)
    (rest : List (Nat × Block)) (h : heap_pop_min q = some (e, rest)) :
    e ∈ q ∧ ∀ x ∈ q, e.1 ≤ x.1 := by
  induction q generalizing e rest with
  | nil => simp [heap_pop_min] at h
  | cons x xs ih =>
    simp only [heap_pop_min] at h
    cases hx : heap_pop_min xs with
    | none =>
      rw [hx] at h
      have hxs : xs = [] := (heap_pop_min_none xs).mp hx
      simp only [Option.some.injEq, Prod.mk.injEq] at h
      subst hxs
      rw [← h.1]
      simp
    | some p =>
      rcases p with ⟨m, mrest⟩
      rw [hx] at h
      simp only [] at h
      have hm := ih m mrest hx
      by_cases hle : x.1 ≤ m.1
      · rw [if_pos hle] at h
        simp only [Option.some.injEq, Prod.mk.injEq] at h
        rw [← h.1]
        refine ⟨by simp, ?_⟩
        intro y hy
        rcases List.mem_cons.mp hy with hy | hy
        · rw [hy]
        · exact le_trans hle (hm.2 y hy)
      · rw [if_neg hle] at h
        simp only [Option.some.injEq, Prod.mk.injEq] at h
        rw [← h.1]
        refine ⟨List.mem_cons_of_mem x hm.1, ?_⟩
        intro y hy
        rcases List.mem_cons.mp hy with hy | hy
        · rw [hy]; omega
        · exact hm.2 y hy

/-- One processed entry of the pending error-block queue: the queue as it
stood before the pop, the popped entry, the key of Bob at pop time, the error
state recomputed at pop time, and whether correct_one_bit was invoked. -/
structure DrainEvent where
  queue_before : List (Nat × Block)
  popped : Nat × Block
  bob_at_pop : List Bool
  parity : Parity
  corrected : Bool
deriving DecidableEq, Repr

/-- Session.correct_registered_error_blocks from session.py: while the pending
error-block queue is non-empty, pop an entry of minimal size, recompute the
error state of its block, and invoke correct_one_bit only when that state is
still odd (entries that have become even are silently skipped); the source
asserts that the invocation corrected a bit (did not return None).  The
returned trace records one event per processed entry.  Termination holds
because a skipped entry shortens the queue and a correction strictly
decreases the mismatch measure of the key of Bob. -/
def Session.correct_registered_error_blocks (alice : List Bool) (parameters : Parameters)
    (st : SessionState) : Except String (SessionState × List DrainEvent) :=
  match hpop : heap_pop_min st.error_blocks with
  | none => Except.ok (st, [])
  | some (e, rest) =>
    let st1 : SessionState := { st with error_blocks := rest }
    if hodd : Block.error_parity alice st1.bob e.2 = Parity.errors_odd then
      match hcorr : Block.correct_one_bit alice parameters st1 e.2 with
      | Except.error msg => Except.error msg
      | Except.ok (st2, r) =>
        if r = none then Except.error "AssertionError: correct_one_bit returned None"
        else
          match Session.correct_registered_error_blocks alice parameters st2 with
          | Except.error msg => Except.error msg
          | Except.ok (stF, tr) =>
            Except.ok (stF,
              { queue_before := st.error_blocks, popped := e, bob_at_pop := st1.bob,
                parity := Parity.errors_odd, corrected := true } :: tr)
    else
      match Session.correct_registered_error_blocks alice parameters st1 with
      | Except.error msg => Except.error msg
      | Except.ok (stF, tr) =>
        Except.ok (stF,
          { queue_before := st.error_blocks, popped := e, bob_at_pop := st1.bob,
            parity := Block.error_parity alice st1.bob e.2, corrected := false } :: tr)
termination_by (ham alice st.bob, st.error_blocks.length)
decreasing_by
  · apply Prod.Lex.left
    exact correct_one_bit_ok_ham alice parameters st1 e.2 st2 r hodd hcorr
  · have hlen := heap_pop_min_length st.error_blocks e rest hpop
    exact Prod.Lex.right (ham alice st.bob) (by omega)

/-- Modelled from the spec: the index lists of the top-level blocks of a pass.
The shuffled range [0, shuffle.size) is partitioned into consecutive ranges of
block_size positions, the last possibly shorter, and each position is mapped
through the shuffle to its original key index. -/
def covering_index_lists (shuffle : Shuffle) (block_size : Nat) : List (List Nat) :=
  (List.range ((shuffle.size + block_size - 1) / block_size)).map
    (fun j => (List.range (min block_size (shuffle.size - j * block_size))).map
      (fun o => shuffle.perm (j * block_size + o)))

/-- Modelled from the spec: Block.create_covering_blocks (block.py is not part
of src/).  Wraps each range as a top-level block with a fresh identity,
registers it with the session, and returns the blocks in left-to-right order;
a block size of zero is a caller error. -/
def Block.create_covering_blocks (st : SessionState) (shuffle : Shuffle)
    (block_size : Nat) : Except String (SessionState × List Block) :=
  if block_size = 0 then
    Except.error "AssertionError: block_size must be at least 1"
  else
    (covering_index_lists shuffle block_size).foldlM
      (fun (acc : SessionState × List Block) idxs =>
        let b : Block :=
          { blockId := acc.1.next_block_id, key_indexes := idxs, is_top_block := true }
        match Session.register_block
            { acc.1 with next_block_id := acc.1.next_block_id + 1 } b with
        | Except.error e => Except.error e
        | Except.ok st1 => Except.ok (st1, acc.2 ++ [b]))
      (st, [])

/-- The body of the per-block loop of Session.correct_key (session.py lines
229 to 238): correct_one_bit is invoked on every top-level block, without any
error-state check (the source comment relies on it being a no-operation on a
block with an even number of errors), and the pending error blocks are then
drained before the next top-level block.  The error state of each block at
the moment of the invocation is recorded. -/
def correct_blocks_loop (alice : List Bool) (parameters : Parameters) :
    SessionState → List Block → Except String (SessionState × List Parity)
  | st, [] => Except.ok (st, [])
  | st, b :: rest =>
    let par := Block.error_parity alice st.bob b
    match Block.correct_one_bit alice parameters st b with
    | Except.error e => Except.error e
    | Except.ok (st1, _) =>
      match Session.correct_registered_error_blocks alice parameters st1 with
      | Except.error e => Except.error e
      | Except.ok (st2, _) =>
        match correct_blocks_loop alice parameters st2 rest with
        | Except.error e => Except.error e
        | Except.ok (st3, pars) => Except.ok (st3, par :: pars)

/-- Record of one Cascade pass of Session.correct_key: the pass number, the
block size chosen for the pass, the shuffle mode used, the error states
observed at the top-level correct_one_bit invocations, and the number of
top-level blocks of the pass. -/
structure PassRecord where
  iteration : Nat
  block_size : Nat
  mode : ShuffleMode
  top_calls : List Parity
  blocks_count : Nat
deriving DecidableEq, Repr

/-- The pass loop of Session.correct_key (session.py lines 210 to 238),
iterating over the remaining number of passes: each pass computes its block
size from the injected block-size function, keeps the key unshuffled in pass
one and draws a fresh random shuffle in every later pass, partitions the key
into top-level covering blocks, and runs the per-block loop. -/
def correct_key_passes (alice : List Bool) (parameters : Parameters) (qber : Rat) :
    Nat → Nat → SessionState → Nat → Except String (SessionState × Nat × List PassRecord)
  | 0, _, st, rng => Except.ok (st, rng, [])
  | remaining + 1, iteration, st, rng =>
    let block_size := parameters.block_size_function qber iteration
    let mode := if iteration = 1 then ShuffleMode.shuffle_keep_same
      else ShuffleMode.shuffle_random
    let sh := Shuffle.create st.bob.length mode rng
    match Block.create_covering_blocks st sh.1 block_size with
    | Except.error e => Except.error e
    | Except.ok (st1, blocks) =>
      match correct_blocks_loop alice parameters st1 blocks with
      | Except.error e => Except.error e
      | Except.ok (st2, pars) =>
        match correct_key_passes alice parameters qber remaining (iteration + 1) st2 sh.2 with
        | Except.error e => Except.error e
        | Except.ok (st3, rng2, recs) =>
          Except.ok (st3, rng2,
            { iteration := iteration, block_size := block_size, mode := mode,
              top_calls := pars, blocks_count := blocks.length } :: recs)

/-- Session.correct_key from session.py: starts from a fresh session state
holding the key to be corrected, runs exactly parameters.nr_iterations passes
starting at pass one, and returns the corrected key, which is the key object
that was passed in as mutated in place by the run (embedded as the bob field
of the final session state).  The bracketing channel calls
start_reconciliation and end_reconciliation are effect-free on the mock
channel and are not modelled. -/
def Session.correct_key (alice : List Bool) (parameters : Parameters) (qber : Rat)
    (rng : Nat) (key : List Bool) :
    Except String (List Bool × SessionState × List PassRecord) :=
  match correct_key_passes alice parameters qber parameters.nr_iterations 1
      { bob := key, key_index_to_blocks := [], error_blocks := [],
        next_block_id := 0 } rng with
  | Except.error e => Except.error e
  | Except.ok (stF, _, recs) => Except.ok (stF.bob, stF, recs)

/-- The static attribute Key.set_random_seed looked up by
Session.create_mock_session_and_key: key.py defines no method of this name on
the Key class, so the attribute lookup has no value. -/
def Key.set_random_seed_attr : Option (Int → Unit) := none

/-- Modelled from the spec: the class-level seed setter of shuffle.py
(shuffle.py is not part of src/; the design notes on global seed-setting say
such setters exist outside the constructors). -/
def Shuffle.set_random_seed_attr : Option (Int → Unit) := some (fun _ => ())

/-- A mock session as built by Session.create_mock_session_and_key: the
parameters and the mock classical channel holding the key of Alice. -/
structure MockSession where
  parameters : Parameters
  channelKey : Key

/-- Session.create_mock_session_and_key from session.py: validates the
arguments, then, when a key seed is supplied, performs the attribute access
Key.set_random_seed — which fails, because key.py defines no such method —
before generating the key of Alice and building the mock session.  A shuffle
seed triggers the corresponding lookup on Shuffle. -/
def Session.create_mock_session_and_key (key_size : Nat) (key_seed : Option Int)
    (shuffle_seed : Option Int) (parameters : Parameters) (entropy : Nat) :
    Except String (MockSession × Key) :=
  if key_size < 1 then Except.error "AssertionError: key_size must be at least 1"
  else
    let keyStep : Except String Unit :=
      match key_seed with
      | none => Except.ok ()
      | some s =>
        match Key.set_random_seed_attr with
        | none => Except.error "AttributeError: type object Key has no attribute set_random_seed"
        | some f => Except.ok (f s)
    match keyStep with
    | Except.error e => Except.error e
    | Except.ok _ =>
      let shuffleStep : Except String Unit :=
        match shuffle_seed with
        | none => Except.ok ()
        | some s =>
          match Shuffle.set_random_seed_attr with
          | none =>
            Except.error "AttributeError: type object Shuffle has no attribute set_random_seed"
          | some f => Except.ok (f s)
      match shuffleStep with
      | Except.error e => Except.error e
      | Except.ok _ =>
        let alice_key := Key.create_random_key key_size none entropy
        Except.ok ({ parameters := parameters, channelKey := alice_key }, alice_key)

/-- Specification of the drain loop, shared by the claims about it: a
successful run of Session.correct_registered_error_blocks empties the queue,
and every processed entry was of minimal size in the queue it was popped
from, had the error state of its block recomputed on the key of Bob as it
stood at pop time, and led to a correct_one_bit invocation exactly when that
recomputed state was odd. -/
theorem drain_spec (alice : List Bool) (parameters : Parameters) :
    ∀ (st stF : SessionState) (tr : List DrainEvent),
      Session.correct_registered_error_blocks alice parameters st = Except.ok (stF, tr) →
      stF.error_blocks = [] ∧
      ∀ e ∈ tr,
        (e.popped ∈ e.queue_before ∧ ∀ x ∈ e.queue_before, e.popped.1 ≤ x.1) ∧
        e.parity = Block.error_parity alice e.bob_at_pop e.popped.2 ∧
        (e.corrected = true ↔ e.parity = Parity.errors_odd) := by
  intro st
  induction st using Session.correct_registered_error_blocks.induct alice parameters with
  | case1 x hpop =>
    intro stF tr h
    unfold Session.correct_registered_error_blocks at h
    rw [hpop] at h
    simp only [Except.ok.injEq, Prod.mk.injEq] at h
    refine ⟨?_, ?_⟩
    · rw [← h.1]; exact (heap_pop_min_none x.error_blocks).mp hpop
    · rw [← h.2]; intro e he; exact absurd he (List.not_mem_nil e)
  | case2 x e rest hpop st1 hodd msg hcorr =>
    intro stF tr h
    unfold Session.correct_registered_error_blocks at h
    rw [hpop] at h
    simp only [] at h
    rw [dif_pos hodd, hcorr] at h
    exact absurd h (by simp)
  | case3 x e rest hpop st1 hodd st2 hcorr =>
    intro stF tr h
    unfold Session.correct_registered_error_blocks at h
    rw [hpop] at h
    simp only [] at h
    rw [dif_pos hodd, hcorr] at h
    simp only [] at h
    exact absurd h (by simp)
  | case4 x e rest hpop st1 hodd st2 r hcorr hr msg hdrain ih =>
    intro stF tr h
    unfold Session.correct_registered_error_blocks at h
    rw [hpop] at h
    simp only [] at h
    rw [dif_pos hodd, hcorr] at h
    simp only [] at h
    rw [if_neg hr, hdrain] at h
    simp only [] at h
    exact absurd h (by simp)
  | case5 x e rest hpop st1 hodd st2 r hcorr hr stF5 tr5 hdrain ih =>
    intro stF tr h
    unfold Session.correct_registered_error_blocks at h
    rw [hpop] at h
    simp only [] at h
    rw [dif_pos hodd, hcorr] at h
    simp only [] at h
    rw [if_neg hr, hdrain] at h
    simp only [] at h
    simp only [Except.ok.injEq, Prod.mk.injEq] at h
    obtain ⟨hstF, htr⟩ := h
    have hmin := heap_pop_min_min x.error_blocks e rest hpop
    have hspec := ih stF5 tr5 hdrain
    refine ⟨by rw [← hstF]; exact hspec.1, ?_⟩
    intro ev hev
    rw [← htr] at hev
    rcases List.mem_cons.mp hev with hev | hev
    · subst hev
      refine ⟨⟨hmin.1, hmin.2⟩, ?_, ?_⟩
      · exact hodd.symm
      · simp
    · exact hspec.2 ev hev
  | case6 x e rest hpop st1 hne msg hdrain ih =>
    intro stF tr h
    unfold Session.correct_registered_error_blocks at h
    rw [hpop] at h
    simp only [] at h
    rw [dif_neg hne, hdrain] at h
    exact absurd h (by simp)
  | case7 x e rest hpop st1 hne stF7 tr7 hdrain ih =>
    intro stF tr h
    unfold Session.correct_registered_error_blocks at h
    rw [hpop] at h
    simp only [] at h
    rw [dif_neg hne, hdrain] at h
    simp only [Except.ok.injEq, Prod.mk.injEq] at h
    obtain ⟨hstF, htr⟩ := h
    have hmin := heap_pop_min_min x.error_blocks e rest hpop
    have hspec := ih stF7 tr7 hdrain
    refine ⟨by rw [← hstF]; exact hspec.1, ?_⟩
    intro ev hev
    rw [← htr] at hev
    rcases List.mem_cons.mp hev with hev | hev
    · subst hev
      refine ⟨⟨hmin.1, hmin.2⟩, rfl, ?_⟩
      simp only [Bool.false_eq_true, false_iff]
      exact hne
    · exact hspec.2 ev hev

/-- C4: Session.correct_registered_error_blocks drains the pending error
queue until it is empty, popping an entry of minimal block size at every
step, re-evaluating the error state of the popped block at pop time on the
current key of Bob, and invoking correct_one_bit exactly on the entries whose
recomputed state is still odd (entries that have become even are silently
skipped). -/
theorem c4_correct_registered_error_blocks (alice : List Bool) (parameters : Parameters)
    (st stF : SessionState) (tr : List DrainEvent)
    (h : Session.correct_registered_error_blocks alice parameters st = Except.ok (stF, tr)) :
    stF.error_blocks = [] ∧
    ∀ e ∈ tr,
      (e.popped ∈ e.queue_before ∧ ∀ x ∈ e.queue_before, e.popped.1 ≤ x.1) ∧
      e.parity = Block.error_parity alice e.bob_at_pop e.popped.2 ∧
      (e.corrected = true ↔ e.parity = Parity.errors_odd) :=
  drain_spec alice parameters st stF tr h

/-- One successful step of the per-block loop of correct_key preserves
nothing in particular, but its trace has one recorded error state per
top-level block: the invocation of correct_one_bit is unconditional. -/
theorem correct_blocks_loop_spec (alice : List Bool) (parameters : Parameters) :
    ∀ (blocks : List Block) (st st3 : SessionState) (pars : List Parity),
      correct_blocks_loop alice parameters st blocks = Except.ok (st3, pars) →
      pars.length = blocks.length := by
  intro blocks
  induction blocks with
  | nil =>
    intro st st3 pars h
    simp only [correct_blocks_loop, Except.ok.injEq, Prod.mk.injEq] at h
    rw [← h.2]
    rfl
  | cons b rest ih =>
    intro st st3 pars h
    rw [correct_blocks_loop] at h
    cases hc : Block.correct_one_bit alice parameters st b with
    | error e => rw [hc] at h; simp at h
    | ok p =>
      rcases p with ⟨st1, r⟩
      rw [hc] at h
      simp only [] at h
      cases hd : Session.correct_registered_error_blocks alice parameters st1 with
      | error e => rw [hd] at h; simp at h
      | ok q =>
        rcases q with ⟨st2, tr⟩
        rw [hd] at h
        simp only [] at h
        cases hl : correct_blocks_loop alice parameters st2 rest with
        | error e => rw [hl] at h; simp at h
        | ok w =>
          rcases w with ⟨st3b, pars2⟩
          rw [hl] at h
          simp only [Except.ok.injEq, Prod.mk.injEq] at h
          rw [← h.2]
          simp only [List.length_cons]
          rw [ih st2 st3b pars2 hl]


/-- Specification of the pass loop of Session.correct_key: a successful run
starting at a given pass number performs exactly the requested number of
passes, labels them consecutively, chooses the keep-same shuffle exactly for
pass one and a random shuffle for every other pass, takes each block size
from the injected block-size function, and makes one top-level
correct_one_bit invocation per top-level block. -/
theorem correct_key_passes_spec (alice : List Bool) (parameters : Parameters) (qber : Rat) :
    ∀ (remaining iteration : Nat) (st : SessionState) (rng : Nat)
      (st3 : SessionState) (rng2 : Nat) (recs : List PassRecord),
      correct_key_passes alice parameters qber remaining iteration st rng =
        Except.ok (st3, rng2, recs) →
      recs.length = remaining ∧
      (∀ i (hi : i < recs.length), (recs.get ⟨i, hi⟩).iteration = iteration + i) ∧
      (∀ r ∈ recs,
        r.mode = (if r.iteration = 1 then ShuffleMode.shuffle_keep_same
          else ShuffleMode.shuffle_random) ∧
        r.block_size = parameters.block_size_function qber r.iteration ∧
        r.top_calls.length = r.blocks_count) := by
  intro remaining
  induction remaining with
  | zero =>
    intro iteration st rng st3 rng2 recs h
    simp only [correct_key_passes, Except.ok.injEq, Prod.mk.injEq] at h
    rw [← h.2.2]
    refine ⟨rfl, ?_, ?_⟩
    · intro i hi; exact absurd hi (by simp)
    · intro r hr; exact absurd hr (List.not_mem_nil r)
  | succ n ih =>
    intro iteration st rng st3 rng2 recs h
    rw [correct_key_passes] at h
    split at h
    · simp at h
    · rename_i st1 blocks hcc
      split at h
      · simp at h
      · rename_i st2 pars hloop
        split at h
        · simp at h
        · rename_i st3b rng2b recsb hrec
          simp only [Except.ok.injEq, Prod.mk.injEq] at h
          obtain ⟨hst, hrng, hrecs⟩ := h
          have hspec := ih (iteration + 1) st2 _ st3b rng2b recsb hrec
          have hpars := correct_blocks_loop_spec alice parameters blocks st1 st2 pars hloop
          rw [← hrecs]
          refine ⟨by simp [hspec.1], ?_, ?_⟩
          · intro i hi
            cases i with
            | zero => simp
            | succ j =>
              simp only [List.length_cons] at hi
              have hj : j < recsb.length := by omega
              have := hspec.2.1 j hj
              simp only [List.get_cons_succ]
              rw [this]
              omega
          · intro r hr
            rcases List.mem_cons.mp hr with hr | hr
            · subst hr
              exact ⟨rfl, rfl, hpars⟩
            · exact hspec.2.2 r hr

/-- C6: Session.correct_key runs exactly parameters.nr_iterations passes,
numbered from one; pass one uses the keep-same (identity) shuffle and every
subsequent pass uses a random shuffle; each block size comes from the
configured block-size function; and the returned key is the key object that
was passed in, as mutated in place by the run (the bob field of the final
session state). -/
theorem c6_correct_key (alice : List Bool) (parameters : Parameters) (qber : Rat)
    (rng : Nat) (key key2 : List Bool) (stF : SessionState) (recs : List PassRecord)
    (h : Session.correct_key alice parameters qber rng key = Except.ok (key2, stF, recs)) :
    recs.length = parameters.nr_iterations ∧
    key2 = stF.bob ∧
    (∀ i (hi : i < recs.length), (recs.get ⟨i, hi⟩).iteration = i + 1) ∧
    (∀ r ∈ recs,
      (r.mode = ShuffleMode.shuffle_keep_same ↔ r.iteration = 1) ∧
      r.block_size = parameters.block_size_function qber r.iteration) := by
  unfold Session.correct_key at h
  split at h
  · simp at h
  · rename_i stG rngG recsG hrun
    simp only [Except.ok.injEq, Prod.mk.injEq] at h
    obtain ⟨hkey2, hstF, hrecs⟩ := h
    have hspec := correct_key_passes_spec alice parameters qber
      parameters.nr_iterations 1 _ rng stG rngG recsG hrun
    subst hrecs
    refine ⟨hspec.1, by rw [← hkey2, ← hstF], ?_, ?_⟩
    · intro i hi
      rw [hspec.2.1 i hi]
      omega
    · intro r hr
      have hmode := (hspec.2.2 r hr).1
      refine ⟨?_, (hspec.2.2 r hr).2.1⟩
      constructor
      · intro hks
        by_contra hne
        rw [if_neg hne] at hmode
        rw [hks] at hmode
        exact absurd hmode (by simp)
      · intro h1
        rw [h1] at hmode
        simpa using hmode

/-- C3 (amended): inside Session.correct_registered_error_blocks every
invocation of correct_one_bit happens only after the re-check that the error
state of the popped block is odd, but Session.correct_key invokes
correct_one_bit on every top-level block of every pass unconditionally,
without checking the error state first (relying on the invocation being a
no-operation on a block with an even number of errors): the trace records one
invocation per top-level block. -/
theorem c3_amended_call_discipline :
    (∀ (alice : List Bool) (parameters : Parameters) (st stF : SessionState)
      (tr : List DrainEvent),
      Session.correct_registered_error_blocks alice parameters st = Except.ok (stF, tr) →
      ∀ e ∈ tr, e.corrected = true → e.parity = Parity.errors_odd) ∧
    (∀ (alice : List Bool) (parameters : Parameters) (qber : Rat) (rng : Nat)
      (key key2 : List Bool) (stF : SessionState) (recs : List PassRecord),
      Session.correct_key alice parameters qber rng key = Except.ok (key2, stF, recs) →
      ∀ r ∈ recs, r.top_calls.length = r.blocks_count) := by
  constructor
  · intro alice parameters st stF tr h e he hc
    exact (((drain_spec alice parameters st stF tr h).2 e he).2.2).mp hc
  · intro alice parameters qber rng key key2 stF recs h r hr
    unfold Session.correct_key at h
    split at h
    · simp at h
    · rename_i stG rngG recsG hrun
      simp only [Except.ok.injEq, Prod.mk.injEq] at h
      have hspec := correct_key_passes_spec alice parameters qber
        parameters.nr_iterations 1 _ rng stG rngG recsG hrun
      rw [← h.2.2] at hr
      exact (hspec.2.2 r hr).2.2

/-- On a state with an empty pending error queue the drain loop returns at
once, leaving the state unchanged. -/
theorem drain_nil (alice : List Bool) (parameters : Parameters) (st : SessionState)
    (h : st.error_blocks = []) :
    Session.correct_registered_error_blocks alice parameters st = Except.ok (st, []) := by
  unfold Session.correct_registered_error_blocks
  rw [h]
  rfl

/-- A small concrete Cascade parameter set used by the concrete runs: one
pass, constant block size one, sub-block reuse disabled. -/
def demo_parameters : Parameters :=
  { nr_iterations := 1, block_size_function := fun _ _ => 1, sub_block_reuse := false }

/-- A small concrete top-level block covering key index zero. -/
def demo_block : Block :=
  { blockId := 0, key_indexes := [0], is_top_block := true }

/-- Bucket of the head entry of the registry dictionary. -/
theorem registry_lookup_cons (k0 : Nat) (bucket : List Block)
    (rest : List (Nat × List Block)) (j : Nat) :
    registry_lookup ((k0, bucket) :: rest) j =
      if j = k0 then bucket else registry_lookup rest j := by
  unfold registry_lookup
  rw [List.lookup_cons]
  by_cases h : j = k0
  · simp [h]
  · rw [show (j == k0) = false from beq_eq_false_iff_ne.mpr h]
    simp only []
    rw [if_neg h]

/-- Unfolding equation of registry_append on a non-empty registry. -/
theorem registry_append_cons (k0 : Nat) (bucket : List Block)
    (rest : List (Nat × List Block)) (k : Nat) (b : Block) :
    registry_append ((k0, bucket) :: rest) k b =
      if k0 = k then (k0, bucket ++ [b]) :: rest
      else (k0, bucket) :: registry_append rest k b := rfl

/-- Looking a key index up after appending a block to a bucket of the
registry dictionary: the bucket of that key index gains the block at its end,
every other bucket is unchanged. -/
theorem registry_lookup_append (reg : List (Nat × List Block)) (k : Nat) (b : Block) :
    ∀ j, registry_lookup (registry_append reg k b) j =
      if j = k then registry_lookup reg j ++ [b] else registry_lookup reg j := by
  induction reg with
  | nil =>
    intro j
    show registry_lookup [(k, [b])] j = _
    rw [registry_lookup_cons]
    by_cases hj : j = k <;> simp [hj, registry_lookup]
  | cons p rest ih =>
    rcases p with ⟨k0, bucket⟩
    intro j
    by_cases hk : k0 = k
    · subst hk
      rw [registry_append_cons, if_pos rfl]
      rw [registry_lookup_cons, registry_lookup_cons]
      by_cases hj : j = k0
      · simp only [if_pos hj]
      · simp only [if_neg hj]
    · rw [registry_append_cons, if_neg hk]
      rw [registry_lookup_cons, registry_lookup_cons]
      by_cases hj : j = k0
      · have hjk : j ≠ k := by rw [hj]; exact hk
        simp only [if_pos hj, if_neg hjk]
      · simp only [if_neg hj]
        exact ih j

/-- Success path of the registration loop of Session.register_block: with
distinct key indexes and the block absent from all of their buckets, every
covered bucket gains the block at its end and every other bucket is
unchanged. -/
theorem register_block_go_spec (block : Block) :
    ∀ (idxs : List Nat) (st : SessionState), idxs.Nodup →
      (∀ i ∈ idxs, block ∉ registry_lookup st.key_index_to_blocks i) →
      ∃ st1, register_block_go block st idxs = Except.ok st1 ∧
        (∀ i ∈ idxs, registry_lookup st1.key_index_to_blocks i =
          registry_lookup st.key_index_to_blocks i ++ [block]) ∧
        (∀ i, i ∉ idxs → registry_lookup st1.key_index_to_blocks i =
          registry_lookup st.key_index_to_blocks i) := by
  intro idxs
  induction idxs with
  | nil =>
    intro st _ _
    exact ⟨st, rfl, by intro i hi; exact absurd hi (List.not_mem_nil i), by intro i _; rfl⟩
  | cons a rest ih =>
    intro st hnd hfresh
    have hna : a ∉ rest := (List.nodup_cons.mp hnd).1
    have hndr : rest.Nodup := (List.nodup_cons.mp hnd).2
    have hfa : block ∉ registry_lookup st.key_index_to_blocks a := hfresh a (by simp)
    set st2 : SessionState :=
      { st with key_index_to_blocks := registry_append st.key_index_to_blocks a block }
      with hst2
    have hlk : ∀ j, registry_lookup st2.key_index_to_blocks j =
        if j = a then registry_lookup st.key_index_to_blocks j ++ [block]
        else registry_lookup st.key_index_to_blocks j :=
      registry_lookup_append st.key_index_to_blocks a block
    have hfresh2 : ∀ i ∈ rest, block ∉ registry_lookup st2.key_index_to_blocks i := by
      intro i hi
      rw [hlk i, if_neg (fun hc : i = a => hna (hc ▸ hi))]
      exact hfresh i (by simp [hi])
    obtain ⟨st1, hgo, hin, hout⟩ := ih st2 hndr hfresh2
    refine ⟨st1, ?_, ?_, ?_⟩
    · unfold register_block_go
      rw [if_neg hfa]
      exact hgo
    · intro i hi
      rcases List.mem_cons.mp hi with hi | hi
      · subst hi
        rw [hout i hna, hlk i, if_pos rfl]
      · rw [hin i hi, hlk i, if_neg (fun hc : i = a => hna (hc ▸ hi))]
    · intro i hi
      have hia : i ≠ a := fun hc => hi (by simp [hc])
      have hir : i ∉ rest := fun hc => hi (by simp [hc])
      rw [hout i hir, hlk i, if_neg hia]

/-- Failure path of the registration loop of Session.register_block: when the
block is already present in the bucket of some covered key index, the loop
fails with the assertion. -/
theorem register_block_go_err (block : Block) :
    ∀ (idxs : List Nat) (st : SessionState),
      (∃ i ∈ idxs, block ∈ registry_lookup st.key_index_to_blocks i) →
      (register_block_go block st idxs).isOk = false := by
  intro idxs
  induction idxs with
  | nil =>
    intro st h
    obtain ⟨i, hi, _⟩ := h
    exact absurd hi (List.not_mem_nil i)
  | cons a rest ih =>
    intro st h
    by_cases hfa : block ∈ registry_lookup st.key_index_to_blocks a
    · unfold register_block_go
      rw [if_pos hfa]
      rfl
    · obtain ⟨i, hi, hmem⟩ := h
      rcases List.mem_cons.mp hi with hi | hi
      · exact absurd (hi ▸ hmem) hfa
      · unfold register_block_go
        rw [if_neg hfa]
        apply ih
        refine ⟨i, hi, ?_⟩
        rw [registry_lookup_append st.key_index_to_blocks a block i]
        by_cases hia : i = a
        · rw [if_pos hia]
          exact List.mem_append_left _ (hia ▸ hmem)
        · rw [if_neg hia]
          exact hmem

/-- C5: Session.register_block appends the block to the bucket of every
covered key index, so that with distinct covered indexes and a block not yet
registered the block appears exactly once in each covered bucket and no other
bucket changes; and registering a block already present in one of those
buckets fails with the assertion. -/
theorem c5_register_block (st : SessionState) (block : Block)
    (hnd : block.key_indexes.Nodup) :
    ((∀ i ∈ block.key_indexes,
        block ∉ Session.get_blocks_containing_key_index st i) →
      ∃ st1, Session.register_block st block = Except.ok st1 ∧
        (∀ i ∈ block.key_indexes,
          Session.get_blocks_containing_key_index st1 i =
            Session.get_blocks_containing_key_index st i ++ [block] ∧
          (Session.get_blocks_containing_key_index st1 i).count block = 1) ∧
        (∀ i, i ∉ block.key_indexes →
          Session.get_blocks_containing_key_index st1 i =
            Session.get_blocks_containing_key_index st i)) ∧
    ((∃ i ∈ block.key_indexes, block ∈ Session.get_blocks_containing_key_index st i) →
      (Session.register_block st block).isOk = false) := by
  constructor
  · intro hfresh
    have hfresh2 : ∀ i ∈ block.key_indexes,
        block ∉ registry_lookup st.key_index_to_blocks i := hfresh
    obtain ⟨st1, hgo, hin, hout⟩ :=
      register_block_go_spec block block.key_indexes st hnd hfresh2
    refine ⟨st1, hgo, ?_, ?_⟩
    · intro i hi
      constructor
      · show registry_lookup st1.key_index_to_blocks i =
          registry_lookup st.key_index_to_blocks i ++ [block]
        exact hin i hi
      · show (registry_lookup st1.key_index_to_blocks i).count block = 1
        rw [hin i hi, List.count_append, List.count_eq_zero.mpr (hfresh2 i hi)]
        simp
    · intro i hi
      show registry_lookup st1.key_index_to_blocks i =
        registry_lookup st.key_index_to_blocks i
      exact hout i hi
  · intro hstale
    exact register_block_go_err block block.key_indexes st hstale

/-- Witness for C5 at concrete inputs: registering a fresh two-index block in
an empty registry succeeds, and registering a block already present in a
bucket fails. -/
theorem c5_register_block_witness :
    (Session.register_block
      { bob := [], key_index_to_blocks := [], error_blocks := [], next_block_id := 0 }
      { blockId := 0, key_indexes := [0, 1], is_top_block := true }).isOk = true ∧
    (Session.register_block
      { bob := [], key_index_to_blocks := [(0, [demo_block])], error_blocks := [],
        next_block_id := 0 }
      demo_block).isOk = false := by
  constructor
  · obtain ⟨st1, hgo, -, -⟩ :=
      (c5_register_block
        { bob := [], key_index_to_blocks := [], error_blocks := [], next_block_id := 0 }
        { blockId := 0, key_indexes := [0, 1], is_top_block := true } (by decide)).1
      (by intro i _; simp [Session.get_blocks_containing_key_index, registry_lookup])
    rw [hgo]
    rfl
  · exact (c5_register_block _ demo_block (by decide)).2
      ⟨0, by decide, by decide⟩

/-- C7: Session.register_error_block pushes the (size, block) entry onto the
pending error queue for every block when sub-block reuse is enabled, but only
for top-level blocks when it is disabled (other blocks are silently ignored);
no duplicate check is performed, so registering the same block twice yields
two queue entries. -/
theorem c7_register_error_block (parameters : Parameters) (q : List (Nat × Block))
    (block : Block) :
    (parameters.sub_block_reuse = false → block.is_top_block = false →
      Session.register_error_block parameters q block = q) ∧
    (parameters.sub_block_reuse = true ∨ block.is_top_block = true →
      Session.register_error_block parameters q block = q ++ [(block.size, block)]) ∧
    (parameters.sub_block_reuse = true ∨ block.is_top_block = true →
      Session.register_error_block parameters
          (Session.register_error_block parameters q block) block =
        q ++ [(block.size, block), (block.size, block)]) := by
  unfold Session.register_error_block heap_push
  refine ⟨?_, ?_, ?_⟩
  · intro h1 h2
    rw [h1, h2]
    rfl
  · intro h
    rcases h with h | h <;> simp [h]
  · intro h
    rcases h with h | h <;> simp [h]

/-- Witness for C7 at concrete inputs: with sub-block reuse disabled a
non-top block is ignored, a top block is enqueued, and enqueueing it twice
yields two entries. -/
theorem c7_register_error_block_witness :
    Session.register_error_block demo_parameters []
        { blockId := 1, key_indexes := [0], is_top_block := false } = [] ∧
    Session.register_error_block demo_parameters [] demo_block =
      [(demo_block.size, demo_block)] ∧
    Session.register_error_block demo_parameters
        (Session.register_error_block demo_parameters [] demo_block) demo_block =
      [(demo_block.size, demo_block), (demo_block.size, demo_block)] :=
  ⟨(c7_register_error_block demo_parameters []
      { blockId := 1, key_indexes := [0], is_top_block := false }).1 rfl rfl,
   (c7_register_error_block demo_parameters [] demo_block).2.1 (Or.inr rfl),
   (c7_register_error_block demo_parameters [] demo_block).2.2 (Or.inr rfl)⟩

/-- C10: for every key size of at least one and every integer key seed,
Session.create_mock_session_and_key fails with the attribute error raised by
the lookup of Key.set_random_seed, a method the Key class of key.py does not
define; with no key seed the helper passes the Key step (and with no shuffle
seed it succeeds outright). -/
theorem c10_create_mock_session_seeded_fails (key_size : Nat) (h1 : 1 ≤ key_size)
    (key_seed : Int) (shuffle_seed : Option Int) (parameters : Parameters)
    (entropy : Nat) :
    Session.create_mock_session_and_key key_size (some key_seed) shuffle_seed
        parameters entropy =
      Except.error "AttributeError: type object Key has no attribute set_random_seed" ∧
    (Session.create_mock_session_and_key key_size none none parameters entropy).isOk
      = true := by
  constructor
  · unfold Session.create_mock_session_and_key
    rw [if_neg (by omega)]
    rfl
  · unfold Session.create_mock_session_and_key
    rw [if_neg (by omega)]
    rfl

/-- Witness for C10 at a concrete input: key size one, key seed zero. -/
theorem c10_create_mock_session_seeded_fails_witness :
    Session.create_mock_session_and_key 1 (some 0) none demo_parameters 0 =
      Except.error "AttributeError: type object Key has no attribute set_random_seed" ∧
    (Session.create_mock_session_and_key 1 none none demo_parameters 0).isOk = true :=
  c10_create_mock_session_seeded_fails 1 (by decide) 0 none demo_parameters 0

/-- A concrete session state whose pending error queue holds one entry whose
block has an even error state (the keys of Bob and Alice agree). -/
def demo_session_even : SessionState :=
  { bob := [false], key_index_to_blocks := [], error_blocks := [(1, demo_block)],
    next_block_id := 0 }

/-- A concrete session state whose pending error queue holds one entry whose
block has an odd error state against the all-ones key of Alice. -/
def demo_session_odd : SessionState :=
  { bob := [false], key_index_to_blocks := [], error_blocks := [(1, demo_block)],
    next_block_id := 0 }

/-- Concrete evaluation: draining the even-state queue pops the entry,
recomputes an even error state, skips the correction, and stops on the empty
queue. -/
theorem demo_drain_even :
    Session.correct_registered_error_blocks [false] demo_parameters demo_session_even =
    Except.ok ({ bob := [false], key_index_to_blocks := [], error_blocks := [],
                 next_block_id := 0 },
      [{ queue_before := [(1, demo_block)], popped := (1, demo_block),
         bob_at_pop := [false], parity := Parity.errors_even, corrected := false }]) := by
  unfold Session.correct_registered_error_blocks
  simp only [demo_session_even]
  rw [show heap_pop_min [(1, demo_block)] = some ((1, demo_block), []) from rfl]
  simp only []
  rw [dif_neg (show ¬Block.error_parity [false] [false] demo_block = Parity.errors_odd
    from by decide)]
  rw [drain_nil [false] demo_parameters _ rfl]
  simp [Block.error_parity, current_parity, demo_block, demo_session_even]

/-- Concrete evaluation of the bisection on a single shuffled position. -/
theorem demo_bisect : bisect_find [true] [false] [0] = 0 := by
  unfold bisect_find
  norm_num

/-- Concrete evaluation: correcting one bit of the odd-state block flips the
single covered bit of the key of Bob. -/
theorem demo_correct_one_bit :
    Block.correct_one_bit [true] demo_parameters
      { bob := [false], key_index_to_blocks := [], error_blocks := [],
        next_block_id := 0 } demo_block =
    Except.ok ({ bob := [true], key_index_to_blocks := [], error_blocks := [],
                 next_block_id := 0 }, some 0) := by
  unfold Block.correct_one_bit
  simp only [demo_block]
  rw [demo_bisect]
  rfl

/-- Concrete evaluation: draining the odd-state queue pops the entry,
recomputes an odd error state, corrects the erroneous bit (the key of Bob
becomes the key of Alice), and stops on the empty queue. -/
theorem demo_drain_odd :
    Session.correct_registered_error_blocks [true] demo_parameters demo_session_odd =
    Except.ok ({ bob := [true], key_index_to_blocks := [], error_blocks := [],
                 next_block_id := 0 },
      [{ queue_before := [(1, demo_block)], popped := (1, demo_block),
         bob_at_pop := [false], parity := Parity.errors_odd, corrected := true }]) := by
  unfold Session.correct_registered_error_blocks
  simp only [demo_session_odd]
  rw [show heap_pop_min [(1, demo_block)] = some ((1, demo_block), []) from rfl]
  simp only []
  rw [dif_pos (show Block.error_parity [true] [false] demo_block = Parity.errors_odd
    from by decide)]
  rw [demo_correct_one_bit]
  simp only []
  rw [drain_nil [true] demo_parameters _ rfl]
  simp [demo_session_odd]

/-- Witness for C4 at a concrete input: the even-state drain run pops the
minimal entry, skips it because its recomputed state is even, and empties the
queue. -/
theorem c4_correct_registered_error_blocks_witness :
    ({ bob := [false], key_index_to_blocks := [], error_blocks := [],
       next_block_id := 0 } : SessionState).error_blocks = [] ∧
    ((1, demo_block) ∈ [(1, demo_block)]) ∧
    (({ queue_before := [(1, demo_block)], popped := (1, demo_block),
        bob_at_pop := [false], parity := Parity.errors_even,
        corrected := false } : DrainEvent).corrected = true ↔
      ({ queue_before := [(1, demo_block)], popped := (1, demo_block),
         bob_at_pop := [false], parity := Parity.errors_even,
         corrected := false } : DrainEvent).parity = Parity.errors_odd) := by
  have h := c4_correct_registered_error_blocks [false] demo_parameters
    demo_session_even _ _ demo_drain_even
  have he := h.2 { queue_before := [(1, demo_block)], popped := (1, demo_block),
                   bob_at_pop := [false], parity := Parity.errors_even,
                   corrected := false } (by simp)
  exact ⟨h.1, he.1.1, he.2.2⟩

/-- Concrete evaluation of a full one-pass run of Session.correct_key on a
one-bit key equal to the key of Alice: the single top-level block is
registered, correct_one_bit is invoked on it although its error state is
even, and the key is returned unchanged. -/
theorem demo_correct_key_run :
    Session.correct_key [false] demo_parameters 0 0 [false] =
    Except.ok ([false],
      { bob := [false], key_index_to_blocks := [(0, [demo_block])], error_blocks := [],
        next_block_id := 1 },
      [{ iteration := 1, block_size := 1, mode := ShuffleMode.shuffle_keep_same,
         top_calls := [Parity.errors_even], blocks_count := 1 }]) := by
  simp [Session.correct_key, correct_key_passes, Shuffle.create,
    Block.create_covering_blocks, covering_index_lists, Session.register_block,
    register_block_go, registry_lookup, registry_append, correct_blocks_loop,
    Block.correct_one_bit, Block.error_parity, current_parity, drain_nil,
    demo_parameters, demo_block, List.foldlM, List.countP, List.countP.go,
    List.lookup, List.range_succ, List.range_zero]

/-- C3 counterexample: in the concrete run of Session.correct_key on a
one-bit key with no errors, the single top-level block of pass one has error
state ERRORS_EVEN, yet correct_one_bit is invoked on it (the recorded
top-level call list of the pass is exactly one call, at even error state), so
the engine does invoke correct_one_bit without having checked that the error
state is odd. -/
theorem c3_counterexample_unchecked_even_call :
    (match Session.correct_key [false] demo_parameters 0 0 [false] with
     | Except.ok (_, _, recs) => recs.map PassRecord.top_calls
     | Except.error _ => []) = [[Parity.errors_even]] := by
  rw [demo_correct_key_run]
  rfl

/-- Witness for the amended C3 at concrete inputs: in the odd-state drain run
the performed correction was indeed on a block re-checked to be odd, and in
the concrete correct_key run the single pass made exactly one unconditional
top-level invocation for its one block. -/
theorem c3_amended_call_discipline_witness :
    ({ queue_before := [(1, demo_block)], popped := (1, demo_block),
       bob_at_pop := [false], parity := Parity.errors_odd,
       corrected := true } : DrainEvent).parity = Parity.errors_odd ∧
    ({ iteration := 1, block_size := 1, mode := ShuffleMode.shuffle_keep_same,
       top_calls := [Parity.errors_even],
       blocks_count := 1 } : PassRecord).top_calls.length =
      ({ iteration := 1, block_size := 1, mode := ShuffleMode.shuffle_keep_same,
         top_calls := [Parity.errors_even],
         blocks_count := 1 } : PassRecord).blocks_count := by
  constructor
  · exact c3_amended_call_discipline.1 [true] demo_parameters demo_session_odd _ _
      demo_drain_odd
      { queue_before := [(1, demo_block)], popped := (1, demo_block),
        bob_at_pop := [false], parity := Parity.errors_odd, corrected := true }
      (by simp) rfl
  · exact c3_amended_call_discipline.2 [false] demo_parameters 0 0 [false] [false] _ _
      demo_correct_key_run
      { iteration := 1, block_size := 1, mode := ShuffleMode.shuffle_keep_same,
        top_calls := [Parity.errors_even], blocks_count := 1 }
      (by simp)

/-- Witness for C6 at a concrete input: the one-pass run produces exactly one
pass record, whose shuffle mode is keep-same exactly because it is pass
one. -/
theorem c6_correct_key_witness :
    [({ iteration := 1, block_size := 1, mode := ShuffleMode.shuffle_keep_same,
        top_calls := [Parity.errors_even],
        blocks_count := 1 } : PassRecord)].length = demo_parameters.nr_iterations ∧
    (({ iteration := 1, block_size := 1, mode := ShuffleMode.shuffle_keep_same,
        top_calls := [Parity.errors_even],
        blocks_count := 1 } : PassRecord).mode = ShuffleMode.shuffle_keep_same ↔
      ({ iteration := 1, block_size := 1, mode := ShuffleMode.shuffle_keep_same,
         top_calls := [Parity.errors_even],
         blocks_count := 1 } : PassRecord).iteration = 1) := by
  have h := c6_correct_key [false] demo_parameters 0 0 [false] [false] _ _
    demo_correct_key_run
  refine ⟨h.1, ?_⟩
  exact (h.2.2.2 { iteration := 1, block_size := 1,
                   mode := ShuffleMode.shuffle_keep_same,
                   top_calls := [Parity.errors_even],
                   blocks_count := 1 } (by simp)).1

end Cascade
